import Mathlib

/-!
Verification of the budget-constrained relevance-ranking pipeline.

This file is a shallow embedding of the core of the repository:

- `src/crawling.py` : `naive_relevance_score` (the lexical prefilter);
- `src/embedding.py` : `EmbeddingManager.rank_links_by_query_relevance`
  (two-stage selection, backfill, budgeted embedding, final ranking);
- `src/cache_manager.py` : `PageCache` and `EmbeddingCache` (save/load
  over hashed-URL file names);
- `src/document_processor.py` : `DocumentProcessor.load_single_url`
  (cache-first page fetching);
- `src/rag_chain.py` : `RAGChain.safe_invoke` (bounded retry loop).

External collaborators (the Google embedding provider, sklearn's
cosine-similarity routine, the md5 hash, JSON serialization, the web
fetcher and the text splitter) are not part of this repository; they
enter the embedding as explicit function parameters, so theorems
quantify over them.  Python exceptions raised by the provider are
modelled with `Except`; the caller-visible totality of the Python
functions (their `try/except` wrappers) is reflected in the Lean
functions being total.  Machine floats are modelled as `ℚ`; all claims
under study concern counts, ordering and set structure, none of which
depend on float rounding.
-/

/-- A candidate link: the `{url, context}` dictionary produced by
`extract_link_contexts` in `src/crawling.py`. -/
structure Link where
  url : String
  context : String
deriving DecidableEq

/-- Accumulating splitter over characters: `wordsAux cs cur` walks the
remaining characters `cs` with the current (reversed) partial token
`cur`, emitting a token at every maximal nonempty run of
non-whitespace characters.  This is Python's `str.split()` with no
separator argument, written over explicit character lists. -/
def wordsAux : List Char → List Char → List (List Char)
  | [], cur => if cur = [] then [] else [cur.reverse]
  | c :: rest, cur =>
    if c.isWhitespace then
      if cur = [] then wordsAux rest [] else cur.reverse :: wordsAux rest []
    else wordsAux rest (c :: cur)

/-- Tokenization used by `naive_relevance_score`: Python's
`s.lower().split()` lower-cases and splits on whitespace, discarding
empty tokens.  Strings are handled through their character lists so
that every operation is kernel-computable. -/
def pyWords (s : String) : List (List Char) :=
  wordsAux (s.data.map Char.toLower) []

/-- Shallow embedding of `naive_relevance_score` (src/crawling.py
lines 56-69): the size of the intersection of the two token sets,
`len(set(query.lower().split()) & set(context.lower().split()))`. -/
def naive_relevance_score (context query : String) : Nat :=
  ((pyWords query).dedup.filter (fun t => t ∈ pyWords context)).length

/-- The order used by `scored.sort(reverse=True, key=lambda x: x[0])`
in `rank_links_by_query_relevance`: descending by lexical score only.
Python's sort is stable, which `List.insertionSort` with this
reflexive-on-ties relation reproduces. -/
def scoreRel (a b : Nat × Link) : Prop :=
  b.1 ≤ a.1

instance : DecidableRel scoreRel :=
  fun a b => inferInstanceAs (Decidable (b.1 ≤ a.1))

instance : IsTotal (Nat × Link) scoreRel :=
  ⟨fun a b => Nat.le_total b.1 a.1⟩

instance : IsTrans (Nat × Link) scoreRel :=
  ⟨fun _ _ _ h1 h2 => le_trans h2 h1⟩

/-- The order used by `sorted(scored_links, reverse=True)` on
`(similarity, url)` pairs: descending lexicographic tuple comparison,
so ties in similarity are broken by the URL string in descending
order.  Python compares strings lexicographically by code points,
which is the lexicographic order on their character lists. -/
def rankRel (a b : ℚ × String) : Prop :=
  b.1 < a.1 ∨ (a.1 = b.1 ∧ b.2.data ≤ a.2.data)

instance : DecidableRel rankRel :=
  fun _ _ => inferInstanceAs (Decidable (_ ∨ _))

instance : IsTotal (ℚ × String) rankRel := by
  constructor
  intro a b
  rcases lt_trichotomy a.1 b.1 with h | h | h
  · exact Or.inr (Or.inl h)
  · rcases le_total a.2.data b.2.data with h2 | h2
    · exact Or.inr (Or.inr ⟨h.symm, h2⟩)
    · exact Or.inl (Or.inr ⟨h, h2⟩)
  · exact Or.inl (Or.inl h)

instance : IsTrans (ℚ × String) rankRel := by
  constructor
  intro a b c hab hbc
  rcases hab with h1 | ⟨h1, h1'⟩
  · rcases hbc with h2 | ⟨h2, _⟩
    · exact Or.inl (h2.trans h1)
    · exact Or.inl (h2 ▸ h1)
  · rcases hbc with h2 | ⟨h2, h2'⟩
    · exact Or.inl (h1 ▸ h2)
    · exact Or.inr ⟨h1.trans h2, h2'.trans h1'⟩

/-- Lines 69-76 of `rank_links_by_query_relevance`: score every
candidate, stable-sort descending by score and keep the first
`TOTAL_EMBEDDING_BUDGET - 1` links (the selection set before
backfill). -/
def selectBeforeBackfill (query : String) (linkData : List Link) (totalBudget : Nat) :
    List Link :=
  let scored := linkData.map (fun l => (naive_relevance_score l.context query, l))
  ((List.insertionSort scoreRel scored).take (totalBudget - 1)).map Prod.snd

/-- The backfill loop of lines 83-87: scan the full candidate list in
original order, appending any link whose URL is not in the frozen
`selected_urls` set, and stop as soon as the accumulated selection
reaches `minLinks`.  Note that the Python code computes
`selected_urls` once, before the loop, and never updates it. -/
def backfill (minLinks : Nat) (selectedUrls : List String) :
    List Link → List Link → List Link
  | [], acc => acc
  | l :: rest, acc =>
    if l.url ∈ selectedUrls then
      backfill minLinks selectedUrls rest acc
    else
      if minLinks ≤ acc.length + 1 then acc ++ [l]
      else backfill minLinks selectedUrls rest (acc ++ [l])

/-- Lines 69-87: the full selection stage (prefilter ranking, budget
truncation, then backfill when the truncated set is smaller than
`min_links`). -/
def selectLinks (query : String) (linkData : List Link) (totalBudget minLinks : Nat) :
    List Link :=
  let selected := selectBeforeBackfill query linkData totalBudget
  if selected.length < minLinks then
    backfill minLinks (selected.map Link.url) linkData selected
  else selected

/-- Embedding vectors (Python lists of floats, modelled over `ℚ`). -/
abbrev Vec := List ℚ

/-- Failure classification of an embedding call, mirroring the
handlers of lines 113-121: `google.api_core` `Unauthorized`,
`Forbidden`, and the catch-all `Exception` (which includes
`ResourceExhausted` and `InternalServerError`, since
`rank_links_by_query_relevance` installs no dedicated handler for
them). -/
inductive EmbErr where
  | unauthorized
  | forbidden
  | other
deriving DecidableEq

/-- The embedding cache as seen through `EmbeddingCache.load/save`
during ranking: an association of URLs to vectors (newest entry
first).  The file-and-hash layer underneath it is modelled separately
for the cache claims. -/
abbrev EmbCache := List (String × Vec)

/-- Lines 94-107, the per-link loop: look the URL up in the embedding
cache; on a miss call the external embedder (`embed_document`, one
attempt, no retry) and save the result under the URL; compute the
similarity of the query vector with the link vector and accumulate
`(score, url)`.  The external embedder is indexed by the number of
provider calls made so far, so that call-sequence-dependent behaviour
(e.g. a transient failure followed by recovery) is expressible.  A
raised exception (`Except.error`) aborts the whole loop, as it
propagates to the `except` clauses of lines 113-121. -/
def scoreLoop (sim : Vec → Vec → ℚ) (embedD : Nat → String → Except EmbErr Vec) (qv : Vec) :
    List Link → EmbCache → Nat → List (ℚ × String) →
    Except EmbErr (List (ℚ × String)) × Nat × EmbCache
  | [], cache, calls, acc => (.ok acc, calls, cache)
  | l :: rest, cache, calls, acc =>
    match List.lookup l.url cache with
    | some v => scoreLoop sim embedD qv rest cache calls (acc ++ [(sim qv v, l.url)])
    | none =>
      match embedD calls l.context with
      | .error e => (.error e, calls + 1, cache)
      | .ok v =>
        scoreLoop sim embedD qv rest ((l.url, v) :: cache) (calls + 1) (acc ++ [(sim qv v, l.url)])

/-- Result of one `rank_links_by_query_relevance` invocation: the
returned URL list, the total number of provider embedding calls issued
(query plus documents, successful or failed), and the embedding cache
after the call. -/
structure RankOutcome where
  result : List String
  calls : Nat
  cache : EmbCache
deriving DecidableEq

/-- The body of the `try` block of `rank_links_by_query_relevance`
(lines 68-111): select links, embed the query (one call, counted even
on failure), run the per-link loop, then sort the `(score, url)` pairs
with `sorted(..., reverse=True)` and keep the first `top_k`.  The
query embedder is a single `Except` value since the query is fixed for
the invocation. -/
def rank_links_inner (sim : Vec → Vec → ℚ) (embedQ : Except EmbErr Vec)
    (embedD : Nat → String → Except EmbErr Vec) (cache : EmbCache)
    (query : String) (linkData : List Link) (topK totalBudget minLinks : Nat) :
    Except EmbErr (List (ℚ × String)) × Nat × EmbCache :=
  let selected := selectLinks query linkData totalBudget minLinks
  match embedQ with
  | .error e => (.error e, 1, cache)
  | .ok qv =>
    match scoreLoop sim embedD qv selected cache 1 [] with
    | (.error e, calls, cache') => (.error e, calls, cache')
    | (.ok pairs, calls, cache') =>
      (.ok ((List.insertionSort rankRel pairs).take topK), calls, cache')

/-- Shallow embedding of `EmbeddingManager.rank_links_by_query_relevance`
(src/embedding.py lines 55-121): the `try` body, with every classified
exception (`Unauthorized`, `Forbidden`, or any other) converted to an
empty result by the `except` clauses. -/
def rank_links_by_query_relevance (sim : Vec → Vec → ℚ) (embedQ : Except EmbErr Vec)
    (embedD : Nat → String → Except EmbErr Vec) (cache : EmbCache)
    (query : String) (linkData : List Link) (topK totalBudget minLinks : Nat) :
    RankOutcome :=
  match rank_links_inner sim embedQ embedD cache query linkData topK totalBudget minLinks with
  | (.error _, calls, cache') => ⟨[], calls, cache'⟩
  | (.ok pairs, calls, cache') => ⟨pairs.map Prod.snd, calls, cache'⟩

/-- The sorted, truncated `(similarity, url)` pairs underlying the
returned URL list (`top_links` in the source); empty when the
invocation aborts with an exception. -/
def rankedPairs (sim : Vec → Vec → ℚ) (embedQ : Except EmbErr Vec)
    (embedD : Nat → String → Except EmbErr Vec) (cache : EmbCache)
    (query : String) (linkData : List Link) (topK totalBudget minLinks : Nat) :
    List (ℚ × String) :=
  match rank_links_inner sim embedQ embedD cache query linkData topK totalBudget minLinks with
  | (.error _, _, _) => []
  | (.ok pairs, _, _) => pairs

/-- A cache directory: file names mapped to raw file contents (newest
write first; `List.lookup` therefore sees the latest write, matching
overwrite-on-save). -/
abbrev FileStore := List (String × String)

namespace PageCache

/-- Shallow embedding of `PageCache.save` (src/cache_manager.py lines
27-37): write the page text under the file name `hash_url(url) + ".txt"`.
The hash (`hashlib.md5`, an external library) is a parameter. -/
def save (hashUrl : String → String) (store : FileStore) (url text : String) : FileStore :=
  (hashUrl url ++ ".txt", text) :: store

/-- Shallow embedding of `PageCache.load` (lines 39-50): read the file
back verbatim, `none` when the file does not exist. -/
def load (hashUrl : String → String) (store : FileStore) (url : String) : Option String :=
  List.lookup (hashUrl url ++ ".txt") store

end PageCache

/-- Contents of an embedding-cache file: `some v` for a file that
`json.load` parses back to the vector `v` (Python's `json.dump` of a
float list round-trips through `repr`), `none` for stored bytes that
cannot be parsed.  This models the byte layer just finely enough to
express parse failure. -/
abbrev EmbFile := Option Vec

/-- An embedding-cache directory: file names mapped to contents. -/
abbrev EmbFileStore := List (String × EmbFile)

namespace EmbeddingCache

/-- Shallow embedding of `EmbeddingCache.save` (src/cache_manager.py
lines 55-65): `json.dump` the vector under `hash_url(url) + ".emb"`. -/
def save (hashUrl : String → String) (store : EmbFileStore)
    (url : String) (v : Vec) : EmbFileStore :=
  (hashUrl url ++ ".emb", some v) :: store

/-- Shallow embedding of `EmbeddingCache.load` (lines 67-78): read the
file and `json.load` it; a missing file or a parse failure (the
`except` clause) both yield `none`. -/
def load (hashUrl : String → String) (store : EmbFileStore) (url : String) : Option Vec :=
  (List.lookup (hashUrl url ++ ".emb") store).bind id

end EmbeddingCache

/-- A page-cache store built from a sequence of `PageCache.save`
operations (url, text), applied left to right to an empty store. -/
def pageStoreOfSaves (hashUrl : String → String) (ops : List (String × String)) : FileStore :=
  ops.foldl (fun st op => PageCache.save hashUrl st op.1 op.2) []

/-- An embedding-cache store built from a sequence of
`EmbeddingCache.save` operations (url, vector). -/
def embStoreOfSaves (hashUrl : String → String) (ops : List (String × Vec)) : EmbFileStore :=
  ops.foldl (fun st op => EmbeddingCache.save hashUrl st op.1 op.2) []

/-- Result of one `DocumentProcessor.load_single_url` call: the chunk
list, the page store afterwards, the number of network fetches issued
and the number of page-cache writes performed. -/
structure FetchOutcome where
  chunks : List String
  store : FileStore
  fetches : Nat
  writes : Nat
deriving DecidableEq

/-- The web branch of `load_single_url` (src/document_processor.py
lines 41-57): fetch the page (modelled by `fetchPage`, returning
`none` on any fetch exception), cache the full text, split into
chunks; a failed fetch is logged and yields an empty chunk list. -/
def loadFromWeb (split : String → List String) (hashUrl : String → String)
    (fetchPage : String → Option String) (store : FileStore) (url : String) : FetchOutcome :=
  match fetchPage url with
  | some text => ⟨split text, PageCache.save hashUrl store url text, 1, 1⟩
  | none => ⟨[], store, 1, 0⟩

/-- Shallow embedding of `DocumentProcessor.load_single_url` (lines
23-57).  Note the Python guard is `if cached:` — truthiness — so a
cached *empty* string is treated like a miss and the code falls
through to the web branch. -/
def load_single_url (split : String → List String) (hashUrl : String → String)
    (fetchPage : String → Option String) (store : FileStore) (url : String) : FetchOutcome :=
  match PageCache.load hashUrl store url with
  | some cached =>
    if cached = "" then loadFromWeb split hashUrl fetchPage store url
    else ⟨split cached, store, 0, 0⟩
  | none => loadFromWeb split hashUrl fetchPage store url

/-- Outcome of one underlying `invoke_once` attempt in
`RAGChain.safe_invoke`, classified as the handlers of lines 91-120 do:
success, `ResourceExhausted`, `InternalServerError`, or any other
exception. -/
inductive CallOutcome where
  | ok (answer : String)
  | quotaExhausted
  | internalServerError
  | otherError (msg : String)
deriving DecidableEq

/-- Caller-visible result of `safe_invoke`: the successful chain
result, the structured per-exception error dictionary of lines
115-120, or the structured give-up dictionary of lines 122-125.  No
constructor models a raised exception: `safe_invoke` never raises. -/
inductive InvokeResult where
  | success (answer : String)
  | errorAnswer (msg : String)
  | failedAfterRetries
deriving DecidableEq

/-- The retry loop of `safe_invoke` (src/rag_chain.py lines 88-125):
`remaining` iterations left of `for attempt in range(3)`, the current
exponential-backoff delay (`delay = min(delay * 2, 60)` after a
transient failure, unchanged after a quota failure), and the number of
attempts made so far.  The underlying call is indexed by the attempt
number.  Returns the result together with the total attempt count. -/
def safeInvokeLoop (call : Nat → CallOutcome) : Nat → Nat → Nat → InvokeResult × Nat
  | 0, _, made => (.failedAfterRetries, made)
  | remaining + 1, delay, made =>
    match call made with
    | .ok v => (.success v, made + 1)
    | .quotaExhausted => safeInvokeLoop call remaining delay (made + 1)
    | .internalServerError => safeInvokeLoop call remaining (min (delay * 2) 60) (made + 1)
    | .otherError msg => (.errorAnswer msg, made + 1)

/-- Shallow embedding of `RAGChain.safe_invoke` (lines 78-125): three
total attempts, initial delay one second. -/
def safe_invoke (call : Nat → CallOutcome) : InvokeResult × Nat :=
  safeInvokeLoop call 3 1 0

/-- A degenerate similarity function for concrete scenarios (the
claims under study never depend on the similarity values themselves). -/
def simZero : Vec → Vec → ℚ :=
  fun _ _ => 0

/-- An external embedder that always succeeds with the vector `[1]`. -/
def embedDOk : Nat → String → Except EmbErr Vec :=
  fun _ _ => .ok [1]

/-- An external embedder whose first two provider calls (indices 0 and
1) raise an unclassified transient error, after which it succeeds: a
re-attempt of a failed first document embedding would succeed. -/
def embedDTransient : Nat → String → Except EmbErr Vec :=
  fun n _ => if n ≤ 1 then .error .other else .ok [1]

/-- Two candidate links with distinct URLs and distinct contexts. -/
def twoLinks : List Link :=
  [⟨"u1", "x"⟩, ⟨"u2", "y"⟩]

/-- Two candidate links with identical context (hence identical
embeddings and identical similarity scores) whose URLs are `"a"` and
`"b"` in that extraction order. -/
def tieLinks : List Link :=
  [⟨"a", "same"⟩, ⟨"b", "same"⟩]

/-- A single candidate link. -/
def oneLink : List Link :=
  [⟨"a", "ctx"⟩]

/-! ## Helper lemmas -/

theorem scoreLoop_calls_le (sim : Vec → Vec → ℚ) (embedD : Nat → String → Except EmbErr Vec)
    (qv : Vec) (links : List Link) :
    ∀ (cache : EmbCache) (calls : Nat) (acc : List (ℚ × String)),
    (scoreLoop sim embedD qv links cache calls acc).2.1 ≤ calls + links.length := by
  induction links with
  | nil => intro cache calls acc; simp [scoreLoop]
  | cons l rest ih =>
    intro cache calls acc
    cases hl : List.lookup l.url cache with
    | some v =>
      simp only [scoreLoop, hl]
      exact (ih cache calls _).trans (by simp [List.length_cons])
    | none =>
      cases he : embedD calls l.context with
      | error e =>
        simp only [scoreLoop, hl, he]
        simp [List.length_cons]
      | ok v =>
        simp only [scoreLoop, hl, he]
        exact (ih _ (calls + 1) _).trans (by simp [List.length_cons]; omega)

theorem safeInvokeLoop_made_le (call : Nat → CallOutcome) :
    ∀ (remaining delay made : Nat),
    (safeInvokeLoop call remaining delay made).2 ≤ made + remaining := by
  intro remaining
  induction remaining with
  | zero => intro delay made; simp [safeInvokeLoop]
  | succ n ih =>
    intro delay made
    cases hc : call made with
    | ok v => simp [safeInvokeLoop, hc]
    | quotaExhausted =>
      simp only [safeInvokeLoop, hc]
      exact (ih delay (made + 1)).trans (by omega)
    | internalServerError =>
      simp only [safeInvokeLoop, hc]
      exact (ih _ (made + 1)).trans (by omega)
    | otherError msg => simp [safeInvokeLoop, hc]

/-! ## C2: empty candidate list -/

/-- C2 (amended): for the empty candidate list,
`rank_links_by_query_relevance` returns an empty URL list, leaves the
cache untouched, and issues exactly one embedding call — the query
embedding, which the code issues unconditionally before iterating over
the (empty) selection; it does not issue any document-embedding
call. -/
theorem rank_empty_returns_empty_one_call (sim : Vec → Vec → ℚ) (embedQ : Except EmbErr Vec)
    (embedD : Nat → String → Except EmbErr Vec) (cache : EmbCache)
    (query : String) (topK totalBudget minLinks : Nat) :
    rank_links_by_query_relevance sim embedQ embedD cache query [] topK totalBudget minLinks
      = ⟨[], 1, cache⟩ := by
  have hsel : selectLinks query [] totalBudget minLinks = [] := by
    simp only [selectLinks, selectBeforeBackfill, List.map_nil]
    simp [List.insertionSort, backfill]
  cases embedQ with
  | error e =>
    simp [rank_links_by_query_relevance, rank_links_inner, hsel]
  | ok qv =>
    simp [rank_links_by_query_relevance, rank_links_inner, hsel, scoreLoop,
      List.insertionSort]

/-- C2 (counterexample to the claim as stated): on the empty candidate
list with a succeeding query embedder, `rank_links_by_query_relevance`
issues one embedding call, not zero — the query is embedded even
though there is nothing to rank. -/
theorem rank_empty_counterexample :
    (rank_links_by_query_relevance simZero (.ok [1]) embedDOk [] "q" [] 20 30 10).calls = 1 ∧
    ¬ (rank_links_by_query_relevance simZero (.ok [1]) embedDOk [] "q" [] 20 30 10).calls = 0 := by
  decide

/-! ## C9: the retry loop of safe_invoke -/

/-- C9: `safe_invoke` makes at most 3 attempts; with a call that fails
with a transient (`InternalServerError`) failure twice and then
succeeds, it returns the success value after exactly 3 attempts; with
a call whose first attempt raises an unclassified (e.g. authorization)
error, it makes exactly 1 attempt and immediately returns the
structured error dictionary; and when every attempt fails with a
retryable (quota or transient) failure it returns the structured
give-up dictionary after exactly 3 attempts — in every case a value is
returned, never an exception. -/
theorem safe_invoke_retry_contract (call : Nat → CallOutcome) :
    (safe_invoke call).2 ≤ 3
    ∧ (∀ v, call 0 = .internalServerError → call 1 = .internalServerError →
        call 2 = .ok v → safe_invoke call = (.success v, 3))
    ∧ (∀ msg, call 0 = .otherError msg → safe_invoke call = (.errorAnswer msg, 1))
    ∧ ((∀ i, i < 3 → call i = .quotaExhausted ∨ call i = .internalServerError) →
        safe_invoke call = (.failedAfterRetries, 3)) := by
  refine ⟨?_, ?_, ?_, ?_⟩
  · simpa using safeInvokeLoop_made_le call 3 1 0
  · intro v h0 h1 h2
    simp [safe_invoke, safeInvokeLoop, h0, h1, h2]
  · intro msg h0
    simp [safe_invoke, safeInvokeLoop, h0]
  · intro h
    rcases h 0 (by omega) with h0 | h0 <;> rcases h 1 (by omega) with h1 | h1 <;>
      rcases h 2 (by omega) with h2 | h2 <;>
      simp [safe_invoke, safeInvokeLoop, h0, h1, h2]

/-- C9 (witness): a concrete transient-transient-success call sequence
yields the success value after exactly three attempts. -/
theorem safe_invoke_retry_contract_witness :
    safe_invoke (fun n => if n < 2 then .internalServerError else .ok "v")
      = (.success "v", 3) :=
  (safe_invoke_retry_contract (fun n => if n < 2 then .internalServerError else .ok "v")).2.1
    "v" rfl rfl rfl

/-! ## C1: the embedding-call budget -/

theorem backfill_length_eq (m : Nat) (urls : List String) :
    ∀ (cands acc : List Link), acc.length < m →
    (backfill m urls cands acc).length
      = min m (acc.length + List.countP (fun l => decide (l.url ∉ urls)) cands) := by
  intro cands
  induction cands with
  | nil =>
    intro acc h
    simp only [backfill, List.countP_nil]
    omega
  | cons l rest ih =>
    intro acc h
    simp only [backfill]
    by_cases hm : l.url ∈ urls
    · have hcnt : List.countP (fun l => decide (l.url ∉ urls)) (l :: rest)
          = List.countP (fun l => decide (l.url ∉ urls)) rest := by
        simp [List.countP_cons, hm]
      rw [if_pos hm, ih acc h, hcnt]
    · have hcnt : List.countP (fun l => decide (l.url ∉ urls)) (l :: rest)
          = List.countP (fun l => decide (l.url ∉ urls)) rest + 1 := by
        simp [List.countP_cons, hm]
      rw [if_neg hm, hcnt]
      by_cases hstop : m ≤ acc.length + 1
      · rw [if_pos hstop]
        simp only [List.length_append, List.length_cons, List.length_nil]
        omega
      · rw [if_neg hstop]
        rw [ih (acc ++ [l]) (by simp; omega)]
        simp only [List.length_append, List.length_cons, List.length_nil]
        omega

theorem selectBeforeBackfill_length (query : String) (linkData : List Link) (B : Nat) :
    (selectBeforeBackfill query linkData B).length = min (B - 1) linkData.length := by
  simp [selectBeforeBackfill, List.length_take, List.length_insertionSort]

theorem selectLinks_length_le (query : String) (linkData : List Link) (B m : Nat) :
    (selectLinks query linkData B m).length ≤ max (B - 1) m := by
  simp only [selectLinks]
  have hlen := selectBeforeBackfill_length query linkData B
  by_cases hlt : (selectBeforeBackfill query linkData B).length < m
  · rw [if_pos hlt]
    have := backfill_length_eq m ((selectBeforeBackfill query linkData B).map Link.url)
      linkData (selectBeforeBackfill query linkData B) hlt
    omega
  · rw [if_neg hlt]
    omega

theorem rank_inner_calls_le (sim : Vec → Vec → ℚ) (embedQ : Except EmbErr Vec)
    (embedD : Nat → String → Except EmbErr Vec) (cache : EmbCache)
    (query : String) (linkData : List Link) (topK B m : Nat) :
    (rank_links_inner sim embedQ embedD cache query linkData topK B m).2.1
      ≤ 1 + (selectLinks query linkData B m).length := by
  cases embedQ with
  | error e => simp [rank_links_inner.eq_def]
  | ok qv =>
    have h := scoreLoop_calls_le sim embedD qv (selectLinks query linkData B m) cache 1 []
    rcases hx : scoreLoop sim embedD qv (selectLinks query linkData B m) cache 1 []
      with ⟨r, c, st⟩
    rw [hx] at h
    simp only [rank_links_inner.eq_def, hx]
    cases r <;> simpa using h

theorem rank_calls_eq_inner (sim : Vec → Vec → ℚ) (embedQ : Except EmbErr Vec)
    (embedD : Nat → String → Except EmbErr Vec) (cache : EmbCache)
    (query : String) (linkData : List Link) (topK B m : Nat) :
    (rank_links_by_query_relevance sim embedQ embedD cache query linkData topK B m).calls
      = (rank_links_inner sim embedQ embedD cache query linkData topK B m).2.1 := by
  rw [rank_links_by_query_relevance]
  rcases hx : rank_links_inner sim embedQ embedD cache query linkData topK B m with ⟨r, c, st⟩
  cases r <;> rfl

/-- C1 (amended): one invocation of `rank_links_by_query_relevance`
issues at most `max totalBudget (minSelected + 1)` embedding calls
(query plus document embeddings), independent of the candidate-list
size; in particular the claimed bound of `totalBudget` holds whenever
`minSelected < totalBudget` (as with the source defaults,
`TOTAL_EMBEDDING_BUDGET = 30` and `min_links = 10`), but backfill may
exceed the budget when `minSelected ≥ totalBudget`. -/
theorem rank_calls_le_budget (sim : Vec → Vec → ℚ) (embedQ : Except EmbErr Vec)
    (embedD : Nat → String → Except EmbErr Vec) (cache : EmbCache)
    (query : String) (linkData : List Link) (topK totalBudget minLinks : Nat)
    (hB : 1 ≤ totalBudget) :
    (rank_links_by_query_relevance sim embedQ embedD cache query linkData
        topK totalBudget minLinks).calls ≤ max totalBudget (minLinks + 1)
    ∧ (minLinks < totalBudget →
        (rank_links_by_query_relevance sim embedQ embedD cache query linkData
          topK totalBudget minLinks).calls ≤ totalBudget) := by
  have h1 := rank_inner_calls_le sim embedQ embedD cache query linkData topK totalBudget minLinks
  have h2 := selectLinks_length_le query linkData totalBudget minLinks
  have h3 := rank_calls_eq_inner sim embedQ embedD cache query linkData topK totalBudget minLinks
  omega

/-- C1 (counterexample to the claim as stated): with
`totalBudget = 2`, `minSelected = 2` and two distinct candidates on an
empty cache, backfill restores the selection to two links and the
invocation issues 3 embedding calls (1 query + 2 documents),
exceeding the budget of 2. -/
theorem rank_budget_counterexample :
    (rank_links_by_query_relevance simZero (.ok [1]) embedDOk [] "q" twoLinks 20 2 2).calls = 3 ∧
    ¬ (rank_links_by_query_relevance simZero (.ok [1]) embedDOk [] "q" twoLinks 20 2 2).calls
        ≤ 2 := by
  decide

/-- C1 (witness): the amended bound evaluated at the counterexample
input: 3 = calls ≤ max 2 (2 + 1) = 3. -/
theorem rank_calls_le_budget_witness :
    1 ≤ 2 ∧
    (rank_links_by_query_relevance simZero (.ok [1]) embedDOk [] "q" twoLinks 20 2 2).calls
      ≤ max 2 (2 + 1) :=
  ⟨by decide,
    (rank_calls_le_budget simZero (.ok [1]) embedDOk [] "q" twoLinks 20 2 2 (by decide)).1⟩

/-! ## C7: cache round trip -/

theorem string_data_inj {a b : String} (h : a.data = b.data) : a = b :=
  congrArg String.mk h

theorem append_suffix_cancel {a b : String} (c : String) (h : a ++ c = b ++ c) : a = b :=
  string_data_inj (@List.append_cancel_right Char a.data c.data b.data
    (by rw [← String.data_append, ← String.data_append, h]))

theorem lookup_foldl_save_none {γ β : Type} (key : String → String) (g : γ → β)
    (hkey : ∀ u u' : String, key u = key u' → u = u') :
    ∀ (ops : List (String × γ)) (st : List (String × β)) (url : String),
    List.lookup (key url) st = none → url ∉ ops.map Prod.fst →
    List.lookup (key url) (ops.foldl (fun s op => (key op.1, g op.2) :: s) st) = none := by
  intro ops
  induction ops with
  | nil => intro st url h _; simpa using h
  | cons op rest ih =>
    intro st url h hmem
    have hne : url ≠ op.1 := by
      intro he
      exact hmem (by simp [he])
    have hne' : (key url == key op.1) = false := by
      simp only [beq_eq_false_iff_ne, ne_eq]
      intro hk
      exact hne (hkey _ _ hk)
    simp only [List.foldl_cons]
    apply ih
    · simp [List.lookup, hne', h]
    · intro hm
      exact hmem (by simp [hm])

/-- C7: for either cache kind, `save` followed by `load` of the same
identity returns exactly the saved payload; `load` of an identity that
was never saved returns `none` (given the required collision-freeness
of the identity hash); and an embedding-cache entry whose stored bytes
cannot be parsed loads as `none` — a parse failure is a miss, not an
error.  All functions are total: no case raises. -/
theorem cache_round_trip (hashUrl : String → String) (hinj : Function.Injective hashUrl) :
    (∀ (store : FileStore) (url text : String),
        PageCache.load hashUrl (PageCache.save hashUrl store url text) url = some text)
    ∧ (∀ (store : EmbFileStore) (url : String) (v : Vec),
        EmbeddingCache.load hashUrl (EmbeddingCache.save hashUrl store url v) url = some v)
    ∧ (∀ (ops : List (String × String)) (url : String), url ∉ ops.map Prod.fst →
        PageCache.load hashUrl (pageStoreOfSaves hashUrl ops) url = none)
    ∧ (∀ (ops : List (String × Vec)) (url : String), url ∉ ops.map Prod.fst →
        EmbeddingCache.load hashUrl (embStoreOfSaves hashUrl ops) url = none)
    ∧ (∀ (store : EmbFileStore) (url : String),
        List.lookup (hashUrl url ++ ".emb") store = some none →
        EmbeddingCache.load hashUrl store url = none) := by
  refine ⟨?_, ?_, ?_, ?_, ?_⟩
  · intro store url text
    simp [PageCache.load, PageCache.save, List.lookup_cons_self]
  · intro store url v
    simp [EmbeddingCache.load, EmbeddingCache.save, List.lookup_cons_self]
  · intro ops url hmem
    have hkey : ∀ u u' : String, hashUrl u ++ ".txt" = hashUrl u' ++ ".txt" → u = u' :=
      fun u u' h => hinj (append_suffix_cancel ".txt" h)
    have hl : List.lookup (hashUrl url ++ ".txt") (pageStoreOfSaves hashUrl ops) = none :=
      lookup_foldl_save_none (fun u => hashUrl u ++ ".txt") (fun t : String => t)
        hkey ops [] url rfl hmem
    exact hl
  · intro ops url hmem
    have hkey : ∀ u u' : String, hashUrl u ++ ".emb" = hashUrl u' ++ ".emb" → u = u' :=
      fun u u' h => hinj (append_suffix_cancel ".emb" h)
    have hl : List.lookup (hashUrl url ++ ".emb") (embStoreOfSaves hashUrl ops) = none :=
      lookup_foldl_save_none (fun u => hashUrl u ++ ".emb") (fun v : Vec => some v)
        hkey ops [] url rfl hmem
    show (List.lookup (hashUrl url ++ ".emb") (embStoreOfSaves hashUrl ops)).bind id = none
    rw [hl]
    rfl
  · intro store url h
    simp [EmbeddingCache.load, h]

/-- C7 (witness): concrete round trips with the identity as the (trivially
injective) hash: a page save/load, an embedding save/load, and a load
of a never-saved identity. -/
theorem cache_round_trip_witness :
    PageCache.load id (PageCache.save id [] "u" "t") "u" = some "t"
    ∧ EmbeddingCache.load id (EmbeddingCache.save id [] "u" [1]) "u" = some [1]
    ∧ PageCache.load id (pageStoreOfSaves id [("a", "x")]) "b" = none :=
  ⟨(cache_round_trip id (fun _ _ h => h)).1 [] "u" "t",
   (cache_round_trip id (fun _ _ h => h)).2.1 [] "u" [1],
   (cache_round_trip id (fun _ _ h => h)).2.2.1 [("a", "x")] "b" (by decide)⟩

/-! ## C8: fetch idempotence of load_single_url -/

/-- C8 (amended): provided the URL is not yet cached, the fetch
succeeds and the fetched page text is nonempty, calling
`load_single_url` twice issues exactly one network fetch and one
page-cache write in total (first call: one fetch, one write; second
call: zero of each), and the second call returns the chunks split from
the cached text.  The nonemptiness proviso is forced by the Python
truthiness test `if cached:`, which treats a cached empty string as a
miss. -/
theorem fetch_twice_one_fetch_one_write (split : String → List String)
    (hashUrl : String → String) (fetchPage : String → Option String)
    (store : FileStore) (url text : String)
    (hmiss : PageCache.load hashUrl store url = none)
    (hfetch : fetchPage url = some text) (hne : text ≠ "") :
    (load_single_url split hashUrl fetchPage store url).fetches = 1
    ∧ (load_single_url split hashUrl fetchPage store url).writes = 1
    ∧ (load_single_url split hashUrl fetchPage
        (load_single_url split hashUrl fetchPage store url).store url).fetches = 0
    ∧ (load_single_url split hashUrl fetchPage
        (load_single_url split hashUrl fetchPage store url).store url).writes = 0
    ∧ (load_single_url split hashUrl fetchPage
        (load_single_url split hashUrl fetchPage store url).store url).chunks = split text := by
  have h1 : load_single_url split hashUrl fetchPage store url
      = ⟨split text, PageCache.save hashUrl store url text, 1, 1⟩ := by
    simp [load_single_url, hmiss, loadFromWeb, hfetch]
  have h2 : PageCache.load hashUrl (PageCache.save hashUrl store url text) url = some text := by
    simp [PageCache.load, PageCache.save, List.lookup_cons_self]
  refine ⟨by rw [h1], by rw [h1], ?_, ?_, ?_⟩ <;> rw [h1] <;>
    simp [load_single_url, h2, hne]

/-- C8 (witness): the amended idempotence at a concrete nonempty page. -/
theorem fetch_twice_one_fetch_one_write_witness :
    (load_single_url (fun s => [s]) id (fun _ => some "t") [] "u").fetches = 1
    ∧ (load_single_url (fun s => [s]) id (fun _ => some "t")
        (load_single_url (fun s => [s]) id (fun _ => some "t") [] "u").store "u").fetches = 0 :=
  ⟨(fetch_twice_one_fetch_one_write (fun s => [s]) id (fun _ => some "t") [] "u" "t"
      rfl rfl (by decide)).1,
   (fetch_twice_one_fetch_one_write (fun s => [s]) id (fun _ => some "t") [] "u" "t"
      rfl rfl (by decide)).2.2.1⟩

/-- C8 (counterexample to the claim as stated): when the fetched page
text is empty, the cached empty string fails Python's `if cached:`
truthiness test, so the second call fetches (and writes) again: two
fetches and two writes across the two calls, not one of each. -/
theorem fetch_twice_counterexample :
    (load_single_url (fun s => [s]) id (fun _ => some "") [] "u").fetches
      + (load_single_url (fun s => [s]) id (fun _ => some "")
          (load_single_url (fun s => [s]) id (fun _ => some "") [] "u").store "u").fetches = 2
    ∧ (load_single_url (fun s => [s]) id (fun _ => some "") [] "u").writes
      + (load_single_url (fun s => [s]) id (fun _ => some "")
          (load_single_url (fun s => [s]) id (fun _ => some "") [] "u").store "u").writes = 2
    ∧ ¬ ((load_single_url (fun s => [s]) id (fun _ => some "") [] "u").fetches
      + (load_single_url (fun s => [s]) id (fun _ => some "")
          (load_single_url (fun s => [s]) id (fun _ => some "") [] "u").store "u").fetches
        = 1) := by
  decide

/-! ## C6: classified failures yield an empty result -/

/-- C6: when the query-embedding call raises any classified failure
(`Unauthorized`, `Forbidden`, or any other exception),
`rank_links_by_query_relevance` returns the empty URL list as an
ordinary value, having made only that one call and leaving the cache
untouched; and when the cache is empty and every document-embedding
call raises, the result is likewise the empty list.  The Lean model of
the function is total, reflecting that the Python `except` clauses
convert every classified exception into a returned value — nothing
propagates to the caller. -/
theorem rank_error_returns_empty (sim : Vec → Vec → ℚ) (embedQ : Except EmbErr Vec)
    (embedD : Nat → String → Except EmbErr Vec) (cache : EmbCache)
    (query : String) (linkData : List Link) (topK B m : Nat) (e : EmbErr) :
    (embedQ = .error e →
      rank_links_by_query_relevance sim embedQ embedD cache query linkData topK B m
        = ⟨[], 1, cache⟩)
    ∧ (cache = [] → (∀ n s, embedD n s = .error e) →
      (rank_links_by_query_relevance sim embedQ embedD cache query linkData topK B m).result
        = []) := by
  constructor
  · intro h
    subst h
    simp [rank_links_by_query_relevance, rank_links_inner.eq_def]
  · intro hc hd
    subst hc
    cases embedQ with
    | error e' => simp [rank_links_by_query_relevance, rank_links_inner.eq_def]
    | ok qv =>
      cases hsel : selectLinks query linkData B m with
      | nil =>
        simp [rank_links_by_query_relevance, rank_links_inner.eq_def, hsel, scoreLoop,
          List.insertionSort]
      | cons l rest =>
        simp [rank_links_by_query_relevance, rank_links_inner.eq_def, hsel, scoreLoop,
          hd 1 l.context]

/-- C6 (witness): an unauthorized query embedding on a concrete input
yields the empty result with one call made. -/
theorem rank_error_returns_empty_witness :
    rank_links_by_query_relevance simZero (.error .unauthorized) embedDOk [] "q" twoLinks
      20 30 10 = ⟨[], 1, []⟩ :=
  (rank_error_returns_empty simZero (.error .unauthorized) embedDOk [] "q" twoLinks
    20 30 10 .unauthorized).1 rfl

/-! ## C10: document embeddings are single-attempt, cache-first -/

theorem scoreLoop_all_cached (sim : Vec → Vec → ℚ) (embedD : Nat → String → Except EmbErr Vec)
    (qv : Vec) :
    ∀ (links : List Link) (cache : EmbCache) (calls : Nat) (acc : List (ℚ × String)),
    (∀ l ∈ links, (List.lookup l.url cache).isSome = true) →
    ∃ pairs, scoreLoop sim embedD qv links cache calls acc = (.ok pairs, calls, cache) := by
  intro links
  induction links with
  | nil => intro cache calls acc _; exact ⟨acc, rfl⟩
  | cons l rest ih =>
    intro cache calls acc h
    have hl := h l (by simp)
    cases hv : List.lookup l.url cache with
    | none => rw [hv] at hl; simp at hl
    | some v =>
      simp only [scoreLoop, hv]
      exact ih cache calls _ (fun x hx => h x (by simp [hx]))

theorem scoreLoop_cache_mono (sim : Vec → Vec → ℚ) (embedD : Nat → String → Except EmbErr Vec)
    (qv : Vec) :
    ∀ (links : List Link) (cache : EmbCache) (calls : Nat) (acc : List (ℚ × String))
      (u : String),
    (List.lookup u cache).isSome = true →
    (List.lookup u (scoreLoop sim embedD qv links cache calls acc).2.2).isSome = true := by
  intro links
  induction links with
  | nil => intro cache calls acc u h; simpa [scoreLoop] using h
  | cons l rest ih =>
    intro cache calls acc u h
    cases hv : List.lookup l.url cache with
    | some v =>
      simp only [scoreLoop, hv]
      exact ih cache calls _ u h
    | none =>
      cases he : embedD calls l.context with
      | error e =>
        simp only [scoreLoop, hv, he]
        exact h
      | ok v =>
        simp only [scoreLoop, hv, he]
        apply ih
        by_cases hu : u = l.url
        · simp [List.lookup, hu]
        · have hb : (u == l.url) = false := beq_eq_false_iff_ne.mpr hu
          simp [List.lookup, hb, h]

theorem scoreLoop_caches_all (sim : Vec → Vec → ℚ) (embedD : Nat → String → Except EmbErr Vec)
    (qv : Vec) :
    ∀ (links : List Link) (cache : EmbCache) (calls : Nat) (acc : List (ℚ × String))
      (pairs : List (ℚ × String)) (calls' : Nat) (cache' : EmbCache),
    scoreLoop sim embedD qv links cache calls acc = (.ok pairs, calls', cache') →
    ∀ l ∈ links, (List.lookup l.url cache').isSome = true := by
  intro links
  induction links with
  | nil => intro cache calls acc pairs calls' cache' h x hx; simp at hx
  | cons l rest ih =>
    intro cache calls acc pairs calls' cache' h x hx
    cases hv : List.lookup l.url cache with
    | some v =>
      simp only [scoreLoop, hv] at h
      rcases List.mem_cons.mp hx with rfl | hx'
      · have hm := scoreLoop_cache_mono sim embedD qv rest cache calls
          (acc ++ [(sim qv v, x.url)]) x.url (by simp [hv])
        rwa [h] at hm
      · exact ih cache calls _ pairs calls' cache' h x hx'
    | none =>
      cases he : embedD calls l.context with
      | error e =>
        simp only [scoreLoop, hv, he] at h
        simp at h
      | ok v =>
        simp only [scoreLoop, hv, he] at h
        rcases List.mem_cons.mp hx with rfl | hx'
        · have hm := scoreLoop_cache_mono sim embedD qv rest ((x.url, v) :: cache) (calls + 1)
            (acc ++ [(sim qv v, x.url)]) x.url (by simp [List.lookup_cons_self])
          rwa [h] at hm
        · exact ih ((l.url, v) :: cache) (calls + 1) _ pairs calls' cache' h x hx'

/-- C10 (amended): inside `rank_links_by_query_relevance` document
embeddings are requested directly from the provider with no retry
wrapper: at most one provider call is made per selected link (total
calls ≤ 1 + |selection|, counting the query call); when every selected
URL is already cached, the cached vectors are reused — exactly the one
query call is made and the cache is unchanged; and on a successful run
every selected URL ends up cached under its URL identity. -/
theorem rank_docs_single_attempt_and_cache (sim : Vec → Vec → ℚ) (embedQ : Except EmbErr Vec)
    (embedD : Nat → String → Except EmbErr Vec) (cache : EmbCache)
    (query : String) (linkData : List Link) (topK B m : Nat) :
    ((rank_links_by_query_relevance sim embedQ embedD cache query linkData topK B m).calls
      ≤ 1 + (selectLinks query linkData B m).length)
    ∧ (∀ qv, embedQ = .ok qv →
        (∀ l ∈ selectLinks query linkData B m, (List.lookup l.url cache).isSome = true) →
        (rank_links_by_query_relevance sim embedQ embedD cache query linkData topK B m).calls
            = 1
        ∧ (rank_links_by_query_relevance sim embedQ embedD cache query linkData topK B m).cache
            = cache)
    ∧ (∀ (pairs : List (ℚ × String)) (calls' : Nat) (cache' : EmbCache),
        rank_links_inner sim embedQ embedD cache query linkData topK B m
          = (.ok pairs, calls', cache') →
        ∀ l ∈ selectLinks query linkData B m, (List.lookup l.url cache').isSome = true) := by
  refine ⟨?_, ?_, ?_⟩
  · have h1 := rank_inner_calls_le sim embedQ embedD cache query linkData topK B m
    have h2 := rank_calls_eq_inner sim embedQ embedD cache query linkData topK B m
    omega
  · intro qv hq hcached
    subst hq
    obtain ⟨pairs, hp⟩ := scoreLoop_all_cached sim embedD qv
      (selectLinks query linkData B m) cache 1 [] hcached
    constructor <;>
      simp [rank_links_by_query_relevance, rank_links_inner.eq_def, hp]
  · intro pairs calls' cache' h x hx
    cases embedQ with
    | error e =>
      simp [rank_links_inner.eq_def] at h
    | ok qv =>
      rcases hs : scoreLoop sim embedD qv (selectLinks query linkData B m) cache 1 []
        with ⟨r, c, st⟩
      simp only [rank_links_inner.eq_def, hs] at h
      cases r with
      | error e => simp at h
      | ok pairs0 =>
        simp only [Prod.mk.injEq, Except.ok.injEq] at h
        have := scoreLoop_caches_all sim embedD qv (selectLinks query linkData B m)
          cache 1 [] pairs0 c st hs x hx
        rw [← h.2.2]
        exact this

/-- C10 (counterexample to the claim as stated): on a single uncached
candidate the first document-embedding call fails with a transient
error; a re-attempt (provider call index 2) would succeed, yet `rank`
makes no second attempt and returns the empty list instead of ranking
the link. -/
theorem rank_no_retry_counterexample :
    (rank_links_by_query_relevance simZero (.ok [1]) embedDTransient [] "q" oneLink
        20 30 1).result = []
    ∧ embedDTransient 2 "ctx" = .ok [1]
    ∧ ¬ ((rank_links_by_query_relevance simZero (.ok [1]) embedDTransient [] "q" oneLink
        20 30 1).result = ["a"]) := by
  refine ⟨by decide, rfl, by decide⟩

/-- C10 (witness): with the one selected URL already cached, the
invocation makes exactly the single query call. -/
theorem rank_docs_single_attempt_witness :
    (rank_links_by_query_relevance simZero (.ok [1]) embedDOk [("a", [1])] "q" oneLink
        20 30 1).calls = 1 :=
  ((rank_docs_single_attempt_and_cache simZero (.ok [1]) embedDOk [("a", [1])] "q" oneLink
      20 30 1).2.1 [1] rfl (by decide)).1

/-! ## C3: shape and order of the returned URL list -/

theorem selectBeforeBackfill_mem {query : String} {linkData : List Link} {B : Nat} {l : Link}
    (h : l ∈ selectBeforeBackfill query linkData B) : l ∈ linkData := by
  simp only [selectBeforeBackfill] at h
  rcases List.mem_map.mp h with ⟨p, hp, rfl⟩
  have hp2 : p ∈ List.insertionSort scoreRel
      (linkData.map (fun l => (naive_relevance_score l.context query, l))) :=
    List.Sublist.mem hp (List.take_sublist _ _)
  have hp3 := (List.perm_insertionSort scoreRel _).mem_iff.mp hp2
  rcases List.mem_map.mp hp3 with ⟨x, hx, he⟩
  rw [← he]
  exact hx

theorem backfill_mem (m : Nat) (urls : List String) :
    ∀ (cands acc : List Link) (x : Link), x ∈ backfill m urls cands acc →
      x ∈ acc ∨ x ∈ cands := by
  intro cands
  induction cands with
  | nil =>
    intro acc x h
    exact Or.inl (by simpa [backfill] using h)
  | cons l rest ih =>
    intro acc x h
    simp only [backfill] at h
    by_cases hm : l.url ∈ urls
    · rw [if_pos hm] at h
      rcases ih acc x h with h1 | h1
      · exact Or.inl h1
      · exact Or.inr (by simp [h1])
    · rw [if_neg hm] at h
      by_cases hstop : m ≤ acc.length + 1
      · rw [if_pos hstop] at h
        rcases List.mem_append.mp h with h1 | h1
        · exact Or.inl h1
        · exact Or.inr (by simp [List.mem_singleton.mp h1])
      · rw [if_neg hstop] at h
        rcases ih (acc ++ [l]) x h with h1 | h1
        · rcases List.mem_append.mp h1 with h2 | h2
          · exact Or.inl h2
          · exact Or.inr (by simp [List.mem_singleton.mp h2])
        · exact Or.inr (by simp [h1])

theorem selectLinks_mem {query : String} {linkData : List Link} {B m : Nat} {x : Link}
    (h : x ∈ selectLinks query linkData B m) : x ∈ linkData := by
  simp only [selectLinks] at h
  by_cases hlt : (selectBeforeBackfill query linkData B).length < m
  · rw [if_pos hlt] at h
    rcases backfill_mem m _ linkData _ x h with h1 | h1
    · exact selectBeforeBackfill_mem h1
    · exact h1
  · rw [if_neg hlt] at h
    exact selectBeforeBackfill_mem h

theorem scoreLoop_ok_urls (sim : Vec → Vec → ℚ) (embedD : Nat → String → Except EmbErr Vec)
    (qv : Vec) :
    ∀ (links : List Link) (cache : EmbCache) (calls : Nat)
      (acc pairs : List (ℚ × String)) (calls' : Nat) (cache' : EmbCache),
    scoreLoop sim embedD qv links cache calls acc = (.ok pairs, calls', cache') →
    ∀ p ∈ pairs, p ∈ acc ∨ ∃ l, l ∈ links ∧ p.2 = l.url := by
  intro links
  induction links with
  | nil =>
    intro cache calls acc pairs calls' cache' h p hp
    simp only [scoreLoop, Prod.mk.injEq, Except.ok.injEq] at h
    exact Or.inl (h.1 ▸ hp)
  | cons l rest ih =>
    intro cache calls acc pairs calls' cache' h p hp
    cases hv : List.lookup l.url cache with
    | some v =>
      simp only [scoreLoop, hv] at h
      rcases ih cache calls _ pairs calls' cache' h p hp with h1 | ⟨x, hx, he⟩
      · rcases List.mem_append.mp h1 with h2 | h2
        · exact Or.inl h2
        · refine Or.inr ⟨l, by simp, ?_⟩
          rw [List.mem_singleton.mp h2]
      · exact Or.inr ⟨x, by simp [hx], he⟩
    | none =>
      cases he2 : embedD calls l.context with
      | error e =>
        simp only [scoreLoop, hv, he2] at h
        simp at h
      | ok v =>
        simp only [scoreLoop, hv, he2] at h
        rcases ih _ (calls + 1) _ pairs calls' cache' h p hp with h1 | ⟨x, hx, hee⟩
        · rcases List.mem_append.mp h1 with h2 | h2
          · exact Or.inl h2
          · refine Or.inr ⟨l, by simp, ?_⟩
            rw [List.mem_singleton.mp h2]
        · exact Or.inr ⟨x, by simp [hx], hee⟩

/-- C3 (amended): the URL list returned by `rank` is the projection of
`rankedPairs` (the source's `top_links`); those pairs are sorted by
`rankRel`, i.e. non-increasing similarity with equal-similarity ties
broken by the URL in descending lexicographic order — the order that
Python's `sorted(..., reverse=True)` induces on `(score, url)` tuples,
not the candidates' pre-existing lexical order; the output has length
at most `topK`; and every returned URL is the URL of some input
candidate (no URL is introduced). -/
theorem rank_output_sorted_subset (sim : Vec → Vec → ℚ) (embedQ : Except EmbErr Vec)
    (embedD : Nat → String → Except EmbErr Vec) (cache : EmbCache)
    (query : String) (linkData : List Link) (topK B m : Nat) :
    ((rank_links_by_query_relevance sim embedQ embedD cache query linkData topK B m).result
        = (rankedPairs sim embedQ embedD cache query linkData topK B m).map Prod.snd)
    ∧ List.Sorted rankRel (rankedPairs sim embedQ embedD cache query linkData topK B m)
    ∧ (rank_links_by_query_relevance sim embedQ embedD cache query linkData
        topK B m).result.length ≤ topK
    ∧ ∀ u ∈ (rank_links_by_query_relevance sim embedQ embedD cache query linkData
        topK B m).result, ∃ l, l ∈ linkData ∧ u = l.url := by
  cases embedQ with
  | error e =>
    refine ⟨?_, ?_, ?_, ?_⟩ <;>
      simp [rank_links_by_query_relevance, rankedPairs, rank_links_inner.eq_def, List.Sorted]
  | ok qv =>
    rcases hs : scoreLoop sim embedD qv (selectLinks query linkData B m) cache 1 []
      with ⟨r, c, st⟩
    cases r with
    | error e =>
      refine ⟨?_, ?_, ?_, ?_⟩ <;>
        simp [rank_links_by_query_relevance, rankedPairs, rank_links_inner.eq_def, hs,
          List.Sorted]
    | ok pairs0 =>
      have hr : rank_links_inner sim (.ok qv) embedD cache query linkData topK B m
          = (.ok ((List.insertionSort rankRel pairs0).take topK), c, st) := by
        simp [rank_links_inner.eq_def, hs]
      have hres : (rank_links_by_query_relevance sim (.ok qv) embedD cache query linkData
          topK B m).result = ((List.insertionSort rankRel pairs0).take topK).map Prod.snd := by
        simp [rank_links_by_query_relevance, hr]
      have hrp : rankedPairs sim (.ok qv) embedD cache query linkData topK B m
          = (List.insertionSort rankRel pairs0).take topK := by
        simp [rankedPairs, hr]
      refine ⟨by rw [hres, hrp], ?_, ?_, ?_⟩
      · rw [hrp]
        exact List.Pairwise.sublist (List.take_sublist topK _)
          (List.sorted_insertionSort rankRel pairs0)
      · rw [hres]
        simp only [List.length_map, List.length_take]
        omega
      · intro u hu
        rw [hres] at hu
        rcases List.mem_map.mp hu with ⟨p, hp, rfl⟩
        have hp2 : p ∈ pairs0 := (List.perm_insertionSort rankRel pairs0).mem_iff.mp
          (List.Sublist.mem hp (List.take_sublist topK _))
        rcases scoreLoop_ok_urls sim embedD qv (selectLinks query linkData B m) cache 1 []
          pairs0 c st hs p hp2 with h1 | ⟨x, hx, he⟩
        · simp at h1
        · exact ⟨x, selectLinks_mem hx, he⟩

/-- C3 (counterexample to the claimed tie-breaking): two candidates
with identical context — hence equal lexical score (pre-existing
lexical order ["a", "b"]) and equal similarity — come back as
["b", "a"]: Python's `sorted(..., reverse=True)` on `(score, url)`
tuples breaks similarity ties by URL in descending order, not by the
candidates' pre-existing lexical order, which would give
["a", "b"]. -/
theorem rank_tie_order_counterexample :
    (rank_links_by_query_relevance simZero (.ok [1]) embedDOk [] "q" tieLinks 2 3 2).result
        = ["b", "a"]
    ∧ ¬ ((rank_links_by_query_relevance simZero (.ok [1]) embedDOk [] "q" tieLinks
        2 3 2).result = ["a", "b"]) := by
  decide

/-! ## C4: the pre-backfill selection is a stable descending sort -/

theorem insertionSort_filter_score (s : Nat) (l : List (Nat × Link)) :
    (List.insertionSort scoreRel l).filter (fun p => p.1 == s)
      = l.filter (fun p => p.1 == s) := by
  have hmemA : ∀ p ∈ l.filter (fun p => p.1 == s), p.1 = s := by
    intro p hp
    have h := List.of_mem_filter hp
    exact Nat.beq_eq ▸ (by simpa using h)
  have hPw : (l.filter (fun p => p.1 == s)).Pairwise scoreRel :=
    List.pairwise_of_forall_mem_list (fun a ha b hb => by
      have h1 := hmemA a ha
      have h2 := hmemA b hb
      simp [scoreRel, h1, h2])
  have h1 : (l.filter (fun p => p.1 == s)).Sublist (List.insertionSort scoreRel l) :=
    List.sublist_insertionSort hPw (List.filter_sublist l)
  have h2 : (l.filter (fun p => p.1 == s)).Sublist
      ((List.insertionSort scoreRel l).filter (fun p => p.1 == s)) := by
    have h3 := List.Sublist.filter (fun p => p.1 == s) h1
    rwa [List.filter_eq_self.mpr (fun a ha => (List.mem_filter.mp ha).2)] at h3
  have hperm : ((List.insertionSort scoreRel l).filter (fun p => p.1 == s)).Perm
      (l.filter (fun p => p.1 == s)) :=
    (List.perm_insertionSort scoreRel l).filter _
  exact (h2.eq_of_length hperm.length_eq.symm).symm

/-- C4: the selection set before backfill is exactly the first
`totalBudget − 1` entries (projected to links) of the scored candidate
list under the stable descending sort by lexical score: the sorted
list is a permutation of the scored candidates, is sorted by
non-increasing score, and preserves the original extraction order
within every group of equal-score candidates (stability, stated as
invariance of every equal-score filter). -/
theorem selection_before_backfill_stable_sort (query : String) (linkData : List Link)
    (totalBudget : Nat) (hB : 1 ≤ totalBudget) :
    (selectBeforeBackfill query linkData totalBudget
        = ((List.insertionSort scoreRel
              (linkData.map (fun l => (naive_relevance_score l.context query, l)))).take
            (totalBudget - 1)).map Prod.snd)
    ∧ ((List.insertionSort scoreRel
          (linkData.map (fun l => (naive_relevance_score l.context query, l)))).Perm
        (linkData.map (fun l => (naive_relevance_score l.context query, l))))
    ∧ List.Sorted scoreRel (List.insertionSort scoreRel
        (linkData.map (fun l => (naive_relevance_score l.context query, l))))
    ∧ ∀ s : Nat, (List.insertionSort scoreRel
          (linkData.map (fun l => (naive_relevance_score l.context query, l)))).filter
            (fun p => p.1 == s)
        = (linkData.map (fun l => (naive_relevance_score l.context query, l))).filter
            (fun p => p.1 == s) :=
  ⟨rfl, List.perm_insertionSort scoreRel _, List.sorted_insertionSort scoreRel _,
    fun s => insertionSort_filter_score s _⟩

/-- C4 (witness): the characterization evaluated at a concrete query,
candidate list and the source's configured budget of 30. -/
theorem selection_before_backfill_stable_sort_witness :
    1 ≤ 30 ∧
    selectBeforeBackfill "q" twoLinks 30
      = ((List.insertionSort scoreRel
            (twoLinks.map (fun l => (naive_relevance_score l.context "q", l)))).take
          (30 - 1)).map Prod.snd :=
  ⟨by decide, (selection_before_backfill_stable_sort "q" twoLinks 30 (by decide)).1⟩

/-! ## C5: backfill restores the minimum selection size -/

theorem backfill_eq_append (m : Nat) (urls : List String) :
    ∀ (cands acc : List Link), ∃ ext, backfill m urls cands acc = acc ++ ext
      ∧ ext.Sublist cands ∧ ∀ l ∈ ext, l.url ∉ urls := by
  intro cands
  induction cands with
  | nil =>
    intro acc
    exact ⟨[], by simp [backfill], by simp, by simp⟩
  | cons l rest ih =>
    intro acc
    simp only [backfill]
    by_cases hm : l.url ∈ urls
    · rw [if_pos hm]
      obtain ⟨ext, h1, h2, h3⟩ := ih acc
      exact ⟨ext, h1, h2.cons l, h3⟩
    · rw [if_neg hm]
      by_cases hstop : m ≤ acc.length + 1
      · rw [if_pos hstop]
        refine ⟨[l], rfl, ?_, ?_⟩
        · exact (List.nil_sublist rest).cons₂ l
        · intro x hx
          rw [List.mem_singleton.mp hx]
          exact hm
      · rw [if_neg hstop]
        obtain ⟨ext, h1, h2, h3⟩ := ih (acc ++ [l])
        refine ⟨l :: ext, ?_, h2.cons₂ l, ?_⟩
        · rw [h1, List.append_assoc]
          rfl
        · intro x hx
          rcases List.mem_cons.mp hx with rfl | hx'
          · exact hm
          · exact h3 x hx'

theorem countP_not_selected_ge (linkData before : List Link)
    (hd : (linkData.map Link.url).Nodup) :
    linkData.length - before.length
      ≤ List.countP (fun l => decide (l.url ∉ before.map Link.url)) linkData := by
  have hsplit : linkData.length
      = List.countP (fun l => decide (l.url ∈ before.map Link.url)) linkData
        + List.countP (fun l => decide (l.url ∉ before.map Link.url)) linkData := by
    have h := List.length_eq_countP_add_countP
      (fun l => decide (l.url ∈ before.map Link.url)) linkData
    simpa using h
  have hle : List.countP (fun l => decide (l.url ∈ before.map Link.url)) linkData
      ≤ before.length := by
    rw [List.countP_eq_length_filter]
    have hsub : ((linkData.filter (fun l => decide (l.url ∈ before.map Link.url))).map
        Link.url) ⊆ before.map Link.url := by
      intro u hu
      rcases List.mem_map.mp hu with ⟨x, hx, rfl⟩
      simpa using List.of_mem_filter hx
    have hnd : (((linkData.filter (fun l => decide (l.url ∈ before.map Link.url))).map
        Link.url)).Nodup :=
      List.Nodup.sublist ((List.filter_sublist linkData).map Link.url) hd
    have hlen := (List.subperm_of_subset hnd hsub).length_le
    simpa using hlen
  omega

/-- C5: with pairwise-distinct candidate URLs, the selection passed to
the embedding stage keeps the pre-backfill selection as a prefix,
extends it only with candidates drawn from the candidate list in
original order (a sublist of it), none of which was already selected;
and its size is at least `min minSelected N`, hence at least
`minSelected` whenever `N ≥ minSelected`. -/
theorem selection_backfill_min_size (query : String) (linkData : List Link)
    (totalBudget minLinks : Nat) (hB : 1 ≤ totalBudget)
    (hd : (linkData.map Link.url).Nodup) :
    ((selectLinks query linkData totalBudget minLinks).take
        (selectBeforeBackfill query linkData totalBudget).length
      = selectBeforeBackfill query linkData totalBudget)
    ∧ ((selectLinks query linkData totalBudget minLinks).drop
        (selectBeforeBackfill query linkData totalBudget).length).Sublist linkData
    ∧ (∀ l ∈ (selectLinks query linkData totalBudget minLinks).drop
        (selectBeforeBackfill query linkData totalBudget).length,
        l.url ∉ (selectBeforeBackfill query linkData totalBudget).map Link.url)
    ∧ min minLinks linkData.length
        ≤ (selectLinks query linkData totalBudget minLinks).length := by
  simp only [selectLinks]
  by_cases hlt : (selectBeforeBackfill query linkData totalBudget).length < minLinks
  · rw [if_pos hlt]
    obtain ⟨ext, h1, h2, h3⟩ := backfill_eq_append minLinks
      ((selectBeforeBackfill query linkData totalBudget).map Link.url) linkData
      (selectBeforeBackfill query linkData totalBudget)
    have hlen := backfill_length_eq minLinks
      ((selectBeforeBackfill query linkData totalBudget).map Link.url) linkData
      (selectBeforeBackfill query linkData totalBudget) hlt
    have hcnt := countP_not_selected_ge linkData
      (selectBeforeBackfill query linkData totalBudget) hd
    have hble := selectBeforeBackfill_length query linkData totalBudget
    rw [h1]
    rw [h1] at hlen
    refine ⟨List.take_left _ _, ?_, ?_, ?_⟩
    · rw [List.drop_left]
      exact h2
    · rw [List.drop_left]
      exact h3
    · rw [hlen]
      omega
  · rw [if_neg hlt]
    have hble := selectBeforeBackfill_length query linkData totalBudget
    refine ⟨List.take_length _, ?_, ?_, ?_⟩
    · rw [List.drop_length]
      exact List.nil_sublist _
    · rw [List.drop_length]
      intro l hl
      simp at hl
    · omega

/-- C5 (witness): with budget 2 and minimum 2 on two distinct
candidates, the selection reaches the floor `min 2 2 = 2`. -/
theorem selection_backfill_min_size_witness :
    1 ≤ 2 ∧ (twoLinks.map Link.url).Nodup
    ∧ min 2 twoLinks.length ≤ (selectLinks "q" twoLinks 2 2).length :=
  ⟨by decide, by decide,
    (selection_backfill_min_size "q" twoLinks 2 2 (by decide) (by decide)).2.2.2⟩
